import Mathlib

/-!
Verification of the LAMC-TNN imputer (Low-Rank Autoregressive Matrix Completion).

Shallow embedding of the algorithmic kernel of `src/imputer/LAMC-TNN.ipynb`:
`ten2mat` / `mat2ten` (mode-wise unfold/fold with Fortran-order reshape),
`svt_tnn` (truncated-nuclear-norm singular value thresholding),
`generate_Psi` (lag selection operators), and the `imputer` ADMM loop.

Numpy arrays are embedded as real-valued matrices (`Matrix (Fin r) (Fin c) ℝ`);
an order-`k` tensor is embedded as a function `List ℕ → ℝ` read at index lists
that are in bounds for a dimension list `dims`.  The numeric library calls that
the kernel delegates to (`np.linalg.svd`, `scipy.sparse.linalg.spsolve`,
`np.linalg.pinv`, `np.random.rand`) are modelled as explicit oracle parameters;
theorems that depend on their semantics state the relevant contract as a
hypothesis.
-/

namespace LAMC

/-! ### Fortran-order flattening (the `order = 'F'` reshape of numpy)

`np.reshape(..., order = 'F')` enumerates indices with the FIRST axis varying
fastest.  `flattenF dims idx` is the Fortran-order linear position of the
multi-index `idx` in an array of dimension list `dims`; `unflattenF` recovers
the multi-index by repeated `%`-and-`/` extraction. -/

def flattenF : List ℕ → List ℕ → ℕ
  | [], _ => 0
  | _ :: _, [] => 0
  | d :: ds, i :: is => i + d * flattenF ds is

def unflattenF : List ℕ → ℕ → List ℕ
  | [], _ => []
  | d :: ds, p => p % d :: unflattenF ds (p / d)

/-- Embedding of `ten2mat(tensor, mode)` from the source:
`np.reshape(np.moveaxis(tensor, mode, 0), (tensor.shape[mode], -1), order = 'F')`.
Row `r` is the index along axis `mode`; column `c` Fortran-order enumerates the
remaining axes in their original relative order (which `np.moveaxis`
preserves). -/
def ten2mat (dims : List ℕ) (tensor : List ℕ → ℝ) (mode : ℕ) : ℕ → ℕ → ℝ :=
  fun r c => tensor (List.insertIdx mode r (unflattenF (dims.eraseIdx mode) c))

/-- Embedding of `mat2ten(mat, dim, mode)` from the source: reshape (Fortran order) to the
shape `dim[[mode] ++ others]` and `np.moveaxis(·, 0, mode)` back. -/
def mat2ten (mat : ℕ → ℕ → ℝ) (dims : List ℕ) (mode : ℕ) : List ℕ → ℝ :=
  fun idx => mat (idx.getD mode 0) (flattenF (dims.eraseIdx mode) (idx.eraseIdx mode))

/-! ### `generate_Psi`: the lag selection operators -/

/-- Embedding of `np.max(time_lags)` (the source computes `max_lag = np.max(time_lags)`). -/
def maxlag (L : List ℕ) : ℕ := L.foldr max 0

/-- The lag used for the `i`-th operator: the source's loop uses column offset
`max_lag` for `i = 0` (lag `0`) and `max_lag - time_lags[i - 1]` for
`i ≥ 1`. -/
def psiLag (L : List ℕ) : ℕ → ℕ
  | 0 => 0
  | i + 1 => L.getD i 0

/-- Embedding of `generate_Psi(dim_time, time_lags)` from the source: `d + 1` sparse
operators of shape `(dim_time - max_lag) × dim_time`; operator `i` has the
single nonzero `1` in row `r` at column `r + max_lag - lag_i`
(`coo_matrix((data, (row, col)))` with `data = ones`). -/
def generate_Psi (dim_time : ℕ) (L : List ℕ) :
    List (Matrix (Fin (dim_time - maxlag L)) (Fin dim_time) ℝ) :=
  (List.range (L.length + 1)).map fun i =>
    Matrix.of fun r c =>
      if (c : ℕ) = (r : ℕ) + maxlag L - psiLag L i then 1 else 0

/-! ### `svt_tnn`: truncated-nuclear-norm singular value thresholding

`np.linalg.svd` is an external numeric kernel; the paths of `svt_tnn` are
embedded as functions of the factors that call returns.  `np.linalg.svd`
returns singular values in descending order, which enters the theorems as an
`Antitone` hypothesis. -/

/-- The count `idx = np.sum(s > tau)`: the number of singular values strictly greater
than the threshold. -/
noncomputable def countGT {k : ℕ} (tau : ℝ) (s : Fin k → ℝ) : ℕ :=
  (Finset.univ.filter fun i => tau < s i).card

/-- Direct path of `svt_tnn` (the fall-through branch), given the factors
`u, s, v` returned by `np.linalg.svd(mat, full_matrices = 0)`:
`vec = s[:idx].copy(); vec[theta : idx] = s[theta : idx] - tau;`
`return u[:, :idx] @ np.diag(vec) @ v[:idx, :]` — entry `(a, b)` of which is
the sum over `i < idx` of `vec i * u a i * v i b`. -/
noncomputable def svt_tnn_direct {m n k : ℕ} (u : Matrix (Fin m) (Fin k) ℝ)
    (s : Fin k → ℝ) (v : Matrix (Fin k) (Fin n) ℝ) (tau : ℝ) (theta : ℕ) :
    Matrix (Fin m) (Fin n) ℝ :=
  Matrix.of fun a b => ∑ i : Fin k,
    if (i : ℕ) < countGT tau s then
      (if (i : ℕ) < theta then s i else s i - tau) * (u a i * v i b)
    else 0

/-- The reconstruction described by the spec: with singular values `s` in
descending order, keep exactly the components whose singular value is strictly
greater than `tau`; the first `theta` kept values stay unshrunk, the rest get
`tau` subtracted; components with `s i ≤ tau` are dropped entirely. -/
noncomputable def svt_tnn_specRecon {m n k : ℕ} (u : Matrix (Fin m) (Fin k) ℝ)
    (s : Fin k → ℝ) (v : Matrix (Fin k) (Fin n) ℝ) (tau : ℝ) (theta : ℕ) :
    Matrix (Fin m) (Fin n) ℝ :=
  Matrix.of fun a b => ∑ i : Fin k,
    if tau < s i then
      (if (i : ℕ) < theta then s i else s i - tau) * (u a i * v i b)
    else 0

/-- Gram-matrix fast path of `svt_tnn` (taken when `2 * m < n`), given the
factors `u, sg` returned by `np.linalg.svd(mat @ mat.T, full_matrices = 0)`:
`s = np.sqrt(sg); idx = np.sum(s > tau); mid = np.zeros(idx);`
`mid[:theta] = 1; mid[theta : idx] = (s[theta : idx] - tau) / s[theta : idx];`
`return (u[:, :idx] @ np.diag(mid)) @ (u[:, :idx].T @ mat)`. -/
noncomputable def svt_tnn_gram {m n : ℕ} (u : Matrix (Fin m) (Fin m) ℝ)
    (sg : Fin m → ℝ) (mat : Matrix (Fin m) (Fin n) ℝ) (tau : ℝ) (theta : ℕ) :
    Matrix (Fin m) (Fin n) ℝ :=
  Matrix.of fun a b => ∑ i : Fin m,
    if (i : ℕ) < countGT tau (fun j => Real.sqrt (sg j)) then
      (if (i : ℕ) < theta then 1
        else (Real.sqrt (sg i) - tau) / Real.sqrt (sg i))
        * (u a i * (∑ c : Fin m, u c i * mat c b))
    else 0

/-! ### The `imputer` ADMM loop

`imputer(dense_mat, sparse_mat, time_lags, rho0, lambda0, theta, epsilon,
maxiter, K, pos_missing)` from the source.  `dense_mat` is only read for
diagnostic printing (MAE/RMSE) and does not influence the computation, so it
is dropped.  The numeric library kernels the loop calls — `svt_tnn`'s SVD,
`scipy.sparse.linalg.spsolve`, `np.linalg.pinv` — and the random
initialization `A = 0.001 * np.random.rand(dim[0], d)` enter as oracle
parameters bundled with the inputs. -/

/-- The inputs of one `imputer` invocation plus the numeric oracles. -/
structure Params (nr nc : ℕ) where
  S : Matrix (Fin nr) (Fin nc) ℝ
  miss : Finset (Fin nr × Fin nc)
  L : List ℕ
  rho0 : ℝ
  lambda0 : ℝ
  theta : ℕ
  epsilon : ℝ
  maxiter : ℕ
  K : ℕ
  svtO : Matrix (Fin nr) (Fin nc) ℝ → ℝ → ℕ → Matrix (Fin nr) (Fin nc) ℝ
  solveO : Matrix (Fin nc) (Fin nc) ℝ → (Fin nc → ℝ) → Fin nc → ℝ
  pinvO : Matrix (Fin (nc - maxlag L)) (Fin L.length) ℝ →
    Matrix (Fin L.length) (Fin (nc - maxlag L)) ℝ
  A0 : Matrix (Fin nr) (Fin L.length) ℝ

variable {nr nc : ℕ}

/-- The fill value `np.mean(sparse_mat[sparse_mat != 0])`: the mean over every entry of the
observed matrix that is nonzero (whether or not it is a missing position). -/
noncomputable def nonzeroMean (P : Params nr nc) : ℝ :=
  (∑ p ∈ Finset.univ.filter (fun p : Fin nr × Fin nc => P.S p.1 p.2 ≠ 0),
      P.S p.1 p.2) /
    (Finset.univ.filter fun p : Fin nr × Fin nc => P.S p.1 p.2 ≠ 0).card

/-- Initialization `Z = sparse_mat.copy(); Z[pos_missing] = np.mean(sparse_mat[sparse_mat != 0])`. -/
noncomputable def Zinit (P : Params nr nc) : Matrix (Fin nr) (Fin nc) ℝ :=
  Matrix.of fun i j => if (i, j) ∈ P.miss then nonzeroMean P else P.S i j

/-- The per-row operator: `B[m] = Psis0[0] - sum(Psis0[1:])` where
`Psis0[i + 1] = A[m, i] * Psis[i + 1]`. -/
noncomputable def Bmat (P : Params nr nc) (A : Matrix (Fin nr) (Fin P.L.length) ℝ)
    (m : Fin nr) : Matrix (Fin (nc - maxlag P.L)) (Fin nc) ℝ :=
  (generate_Psi nc P.L).getD 0 0 -
    ∑ i : Fin P.L.length, A m i • (generate_Psi nc P.L).getD ((i : ℕ) + 1) 0

/-- State of the inner (`for k in range(K)`) loop: the Python variables
`Z, T, rho, X`.  (`X` is written before it is first read whenever `K ≥ 1`;
its initial field value stands for the undefined Python variable.) -/
structure InnerState (nr nc : ℕ) where
  Z : Matrix (Fin nr) (Fin nc) ℝ
  T : Matrix (Fin nr) (Fin nc) ℝ
  rho : ℝ
  X : Matrix (Fin nr) (Fin nc) ℝ

/-- Row `m` of `mat`:
`mat[m, :] = spsolve(B[m].T @ B[m] + rho * iden / lambda0, temp0[m, :])` with
`temp0 = rho / lambda0 * (X + T / rho)`. -/
noncomputable def innerMat (P : Params nr nc)
    (B : Fin nr → Matrix (Fin (nc - maxlag P.L)) (Fin nc) ℝ) (rho : ℝ)
    (X Tm : Matrix (Fin nr) (Fin nc) ℝ) (m : Fin nr) : Fin nc → ℝ :=
  P.solveO
    ((B m).transpose * B m + (rho / P.lambda0) • (1 : Matrix (Fin nc) (Fin nc) ℝ))
    (fun j => rho / P.lambda0 * (X m j + Tm m j / rho))

/-- One iteration of the inner loop:
`rho = min(rho * 1.05, 1e5); X = svt_tnn(Z - T / rho, 1 / rho, theta);`
per-row solves; `Z[pos_missing] = mat[pos_missing]; T = T + rho * (X - Z)`. -/
noncomputable def innerStep (P : Params nr nc)
    (B : Fin nr → Matrix (Fin (nc - maxlag P.L)) (Fin nc) ℝ)
    (st : InnerState nr nc) : InnerState nr nc :=
  let rho := min (st.rho * 1.05) 100000
  let X := P.svtO (Matrix.of fun i j => st.Z i j - st.T i j / rho) (1 / rho) P.theta
  let Z := Matrix.of fun i j =>
    if (i, j) ∈ P.miss then innerMat P B rho X st.T i j else st.Z i j
  let T := Matrix.of fun i j => st.T i j + rho * (X i j - Z i j)
  ⟨Z, T, rho, X⟩

/-- The design matrix `Vm = Z[m, ind].T` where `ind[i, :] = np.arange(max_lag - time_lags[i],
dim[1] - time_lags[i])`, i.e. `Vm[r, i] = Z[m, max_lag - time_lags[i] + r]`. -/
noncomputable def Vmat (P : Params nr nc) (Z : Matrix (Fin nr) (Fin nc) ℝ)
    (m : Fin nr) : Matrix (Fin (nc - maxlag P.L)) (Fin P.L.length) ℝ :=
  Matrix.of fun r i =>
    if h : maxlag P.L - P.L.getD i 0 + (r : ℕ) < nc then Z m ⟨_, h⟩ else 0

/-- Re-estimation `A[m, :] = np.linalg.pinv(Vm) @ Z[m, max_lag :]`. -/
noncomputable def Aupdate (P : Params nr nc) (Z : Matrix (Fin nr) (Fin nc) ℝ) :
    Matrix (Fin nr) (Fin P.L.length) ℝ :=
  Matrix.of fun m i => ∑ r, P.pinvO (Vmat P Z m) i r *
    (if h : maxlag P.L + (r : ℕ) < nc then Z m ⟨_, h⟩ else 0)

/-- Frobenius norm `np.linalg.norm(M, 'fro')`. -/
noncomputable def frobNorm {a b : ℕ} (M : Matrix (Fin a) (Fin b) ℝ) : ℝ :=
  Real.sqrt (∑ i, ∑ j, M i j ^ 2)

/-- State of the outer (`while True`) loop at the top of an iteration: the
Python variables `Z, T, A, last_mat, rho` plus the latest value of `X`. -/
structure OuterState (nr nc d : ℕ) where
  Z : Matrix (Fin nr) (Fin nc) ℝ
  T : Matrix (Fin nr) (Fin nc) ℝ
  A : Matrix (Fin nr) (Fin d) ℝ
  lastMat : Matrix (Fin nr) (Fin nc) ℝ
  rho : ℝ
  X : Matrix (Fin nr) (Fin nc) ℝ

/-- The state right before the `while True:` loop: `T = np.zeros(dim)`,
`Z` mean-filled, `A = 0.001 * np.random.rand(...)` (oracle `A0`),
`last_mat = sparse_mat.copy()`, `rho = rho0`.  The Python variable `X` does
not exist yet; the field is initialized to `0` and is overwritten before
first use whenever `K ≥ 1`. -/
noncomputable def initState (P : Params nr nc) : OuterState nr nc P.L.length where
  Z := Zinit P
  T := 0
  A := P.A0
  lastMat := P.S
  rho := P.rho0
  X := 0

/-- One outer iteration: rebuild `B` from the current `A`, run `K` inner
iterations, re-estimate `A`, compute
`tol = np.linalg.norm(X - last_mat, 'fro') / snorm`, set `last_mat = X`. -/
noncomputable def outerStep (P : Params nr nc) (st : OuterState nr nc P.L.length) :
    OuterState nr nc P.L.length × ℝ :=
  let inn := (innerStep P (Bmat P st.A))^[P.K] ⟨st.Z, st.T, st.rho, st.X⟩
  let A := Aupdate P inn.Z
  let tol := frobNorm (inn.X - st.lastMat) / frobNorm P.S
  (⟨inn.Z, inn.T, A, inn.X, inn.rho, inn.X⟩, tol)

/-- The outer-iteration trace: state after `n` completed outer iterations. -/
noncomputable def outerTrace (P : Params nr nc) : ℕ → OuterState nr nc P.L.length
  | 0 => initState P
  | n + 1 => (outerStep P (outerTrace P n)).1

/-- State after `j` completed inner iterations within outer iteration `n + 1`
(the `B` operators are rebuilt from `A` once, at the top of the outer
iteration). -/
noncomputable def innerTrace (P : Params nr nc) (n j : ℕ) : InnerState nr nc :=
  (innerStep P (Bmat P (outerTrace P n).A))^[j]
    ⟨(outerTrace P n).Z, (outerTrace P n).T, (outerTrace P n).rho,
      (outerTrace P n).X⟩

/-- The tolerance computed during outer iteration `n + 1`. -/
noncomputable def tolAt (P : Params nr nc) (n : ℕ) : ℝ :=
  (outerStep P (outerTrace P n)).2

/-- The `while True: ... if (tol < epsilon and tol != 0) or (it >= maxiter):
break` loop, with the iteration counter `it` and enough fuel that the fuel
never runs out before the `break` fires. -/
noncomputable def loopGo (P : Params nr nc) :
    ℕ → ℕ → OuterState nr nc P.L.length → OuterState nr nc P.L.length × ℕ × ℝ
  | 0, it, st => (st, it, 0)
  | fuel + 1, it, st =>
      let r := outerStep P st
      if (r.2 < P.epsilon ∧ r.2 ≠ 0) ∨ P.maxiter ≤ it + 1 then (r.1, it + 1, r.2)
      else loopGo P fuel (it + 1) r.1

/-- The whole loop run: final state, total iteration count `it`, final `tol`. -/
noncomputable def imputerRun (P : Params nr nc) :
    OuterState nr nc P.L.length × ℕ × ℝ :=
  loopGo P (max P.maxiter 1) 0 (initState P)

/-- Returned matrix: `return X`. -/
noncomputable def imputer (P : Params nr nc) : Matrix (Fin nr) (Fin nc) ℝ :=
  (imputerRun P).1.X

/-- A concrete parameter bundle (`1 × 2` data, one missing entry, trivial
oracles) used by witnesses. -/
def Pex : Params 1 2 where
  S := !![3, 0]
  miss := {((0 : Fin 1), (1 : Fin 2))}
  L := [1]
  rho0 := 1
  lambda0 := 1
  theta := 0
  epsilon := 1
  maxiter := 1
  K := 1
  svtO := fun M _ _ => M
  solveO := fun _ b => b
  pinvO := fun _ => 0
  A0 := 0

/-- A concrete parameter bundle whose `solveO` is a genuine linear solver
(`M⁻¹ *ᵥ b`), used by the C5 witness. -/
noncomputable def PexSolve : Params 1 1 where
  S := !![0]
  miss := ∅
  L := [1]
  rho0 := 1
  lambda0 := 1
  theta := 0
  epsilon := 1
  maxiter := 1
  K := 1
  svtO := fun M _ _ => M
  solveO := fun M b => M⁻¹.mulVec b
  pinvO := fun _ => 0
  A0 := 0

/-- A concrete parameter bundle for the counterexamples: the SVT oracle
returns the constant matrix `[[1, 1]]`, so `X` is the same at every outer
iteration, while `last_mat` starts as the observed matrix `[[1, 0]]`;
`epsilon = 1000` makes the convergence test pass already at the first
(`= maxiter`) iteration. -/
def PexB : Params 1 2 where
  S := !![1, 0]
  miss := ∅
  L := [1]
  rho0 := 1
  lambda0 := 1
  theta := 0
  epsilon := 1000
  maxiter := 1
  K := 1
  svtO := fun _ _ _ => !![1, 1]
  solveO := fun _ b => b
  pinvO := fun _ => 0
  A0 := 0

/-! ### Pre-loop shape checking (error behavior)

Before the `while True:` loop the imputer builds the lag operators.  For each
operator, `generate_Psi` passes `shape = (dim_time - max_lag, dim_time)` to
`scipy.sparse.coo_matrix`; in Python `dim_time - max_lag` is a plain (possibly
negative) integer and scipy raises `ValueError: negative dimensions are not
allowed` when it is negative, while `np.arange(0, dim_time - max_lag)` is
simply empty then, so no earlier error fires.  (`np.zeros((d, dim[1] -
max_lag))` in `imputer` fails under exactly the same sign condition.)  When
`max_lag = dim_time` the shape is `(0, dim_time)`: a legal empty operator, and
the run proceeds normally. -/
def generate_Psi_checked (dim_time : ℕ) (L : List ℕ) :
    Except Unit (List (Matrix (Fin (dim_time - maxlag L)) (Fin dim_time) ℝ)) :=
  if (dim_time : ℤ) - (maxlag L : ℤ) < 0 then
    Except.error ()
  else Except.ok (generate_Psi dim_time L)

theorem unflattenF_flattenF {ds is : List ℕ} (h : List.Forall₂ (· < ·) is ds) :
    unflattenF ds (flattenF ds is) = is := by
  induction h with
  | nil => rfl
  | @cons i d is ds hlt _ ih =>
      have hd : 0 < d := Nat.lt_of_le_of_lt (Nat.zero_le i) hlt
      have h1 : (i + d * flattenF ds is) % d = i := by
        rw [Nat.add_mul_mod_self_left, Nat.mod_eq_of_lt hlt]
      have h2 : (i + d * flattenF ds is) / d = flattenF ds is := by
        rw [Nat.add_mul_div_left _ _ hd, Nat.div_eq_of_lt hlt, Nat.zero_add]
      simp only [flattenF, unflattenF, h1, h2, ih]

theorem forall₂_eraseIdx {R : ℕ → ℕ → Prop} {l₁ l₂ : List ℕ}
    (h : List.Forall₂ R l₁ l₂) :
    ∀ n, List.Forall₂ R (l₁.eraseIdx n) (l₂.eraseIdx n) := by
  induction h with
  | nil => intro n; simp
  | @cons a b t₁ t₂ hab _ ih =>
      intro n
      cases n with
      | zero => simpa using (by assumption : List.Forall₂ R t₁ t₂)
      | succ n => simpa using List.Forall₂.cons hab (ih n)

theorem insertIdx_getD_eraseIdx {l : List ℕ} :
    ∀ n, n < l.length → List.insertIdx n (l.getD n 0) (l.eraseIdx n) = l := by
  induction l with
  | nil => intro n h; simp at h
  | cons a t ih =>
      intro n h
      cases n with
      | zero => simp
      | succ n =>
          simp only [List.getD_cons_succ, List.eraseIdx_cons_succ,
            List.insertIdx_succ_cons]
          rw [ih n (by simpa using h)]

/-- C9: for every tensor `T` (read at in-bounds index lists for dimension list
`dims`) and every valid mode, folding the unfolding restores the tensor
exactly: `mat2ten (ten2mat T mode) dims mode = T` at every in-bounds index. -/
theorem mat2ten_ten2mat (dims : List ℕ) (tensor : List ℕ → ℝ) (mode : ℕ)
    (idx : List ℕ) (hmode : mode < dims.length)
    (hbound : List.Forall₂ (· < ·) idx dims) :
    mat2ten (ten2mat dims tensor mode) dims mode idx = tensor idx := by
  have hlen : idx.length = dims.length := hbound.length_eq
  simp only [mat2ten, ten2mat]
  rw [unflattenF_flattenF (forall₂_eraseIdx hbound mode),
    insertIdx_getD_eraseIdx mode (by omega)]

/-- Witness for C9: a concrete `2 × 3` tensor, mode `1`, index `[1, 2]`. -/
theorem mat2ten_ten2mat_witness :
    mat2ten (ten2mat [2, 3] (fun l => (l.getD 0 0 : ℝ) + 10 * l.getD 1 0) 1)
      [2, 3] 1 [1, 2] = (21 : ℝ) := by
  have h := mat2ten_ten2mat [2, 3]
    (fun l => (l.getD 0 0 : ℝ) + 10 * l.getD 1 0) 1 [1, 2] (by decide) (by decide)
  norm_num [List.getD] at h
  exact h

theorem le_maxlag {L : List ℕ} {l : ℕ} (h : l ∈ L) : l ≤ maxlag L := by
  induction L with
  | nil => cases h
  | cons a t ih =>
      rcases List.mem_cons.mp h with rfl | h
      · exact le_max_left _ _
      · exact le_trans (ih h) (le_max_right _ _)

theorem maxlag_mem {L : List ℕ} (h : L ≠ []) : maxlag L ∈ L := by
  induction L with
  | nil => exact absurd rfl h
  | cons a t ih =>
      cases t with
      | nil =>
          have : maxlag [a] = a := max_eq_left (Nat.zero_le a)
          rw [this]; exact List.mem_cons_self _ _
      | cons b u =>
          rcases le_total (maxlag (b :: u)) a with hle | hle
          · have : maxlag (a :: b :: u) = a := max_eq_left hle
            rw [this]; exact List.mem_cons_self _ _
          · have : maxlag (a :: b :: u) = maxlag (b :: u) := max_eq_right hle
            rw [this]; exact List.mem_cons_of_mem _ (ih (by simp))

theorem generate_Psi_getD (cols : ℕ) (L : List ℕ) {i : ℕ}
    (hi : i < L.length + 1) (r : Fin (cols - maxlag L)) (c : Fin cols) :
    ((generate_Psi cols L).getD i 0) r c =
      if (c : ℕ) = (r : ℕ) + maxlag L - psiLag L i then 1 else 0 := by
  unfold generate_Psi
  rw [List.getD_eq_getElem _ _ (by simpa using hi), List.getElem_map,
    List.getElem_range, Matrix.of_apply]

/-- C4: `generate_Psi cols L` returns `d + 1` operators of shape
`(cols - max_lag) × cols`; `Ψ_0` places its one at column `max_lag + r` in row
`r` (selecting columns `[max_lag, cols)`), `Ψ_i` (`i ≥ 1`) at column
`max_lag - l_i + r` (selecting `[max_lag - l_i, cols - l_i)`); each operator is
a 0/1 matrix with exactly one nonzero per row; and the `cols = 5`, `L = [1,3]`
instance equals the three concrete `2 × 5` matrices of the spec. -/
theorem generate_Psi_spec (cols : ℕ) (L : List ℕ) (hne : L ≠ [])
    (hL : ∀ l ∈ L, 0 < l ∧ l < cols) :
    (generate_Psi cols L).length = L.length + 1 ∧
    (∀ r c, ((generate_Psi cols L).getD 0 0) r c
        = if (c : ℕ) = maxlag L + (r : ℕ) then 1 else 0) ∧
    (∀ i, i < L.length → ∀ r c, ((generate_Psi cols L).getD (i + 1) 0) r c
        = if (c : ℕ) = maxlag L - L.getD i 0 + (r : ℕ) then 1 else 0) ∧
    (∀ i, i ≤ L.length → ∀ r c, ((generate_Psi cols L).getD i 0) r c = 0 ∨
        ((generate_Psi cols L).getD i 0) r c = 1) ∧
    (∀ i, i ≤ L.length → ∀ r, (Finset.univ.filter
        fun c => ((generate_Psi cols L).getD i 0) r c ≠ 0).card = 1) ∧
    generate_Psi 5 [1, 3] =
      [!![0,0,0,1,0; 0,0,0,0,1], !![0,0,1,0,0; 0,0,0,1,0],
        !![1,0,0,0,0; 0,1,0,0,0]] := by
  have hml : maxlag L < cols := (hL _ (maxlag_mem hne)).2
  refine ⟨by simp [generate_Psi], ?_, ?_, ?_, ?_, ?_⟩
  · intro r c
    rw [generate_Psi_getD cols L (by omega) r c]
    have h0 : (r : ℕ) + maxlag L - psiLag L 0 = maxlag L + (r : ℕ) := by
      simp [psiLag]; omega
    rw [h0]
  · intro i hi r c
    rw [generate_Psi_getD cols L (by omega) r c]
    have hmem : L.getD i 0 ∈ L := by
      rw [List.getD_eq_getElem _ _ hi]; exact List.getElem_mem _
    have hlag : L.getD i 0 ≤ maxlag L := le_maxlag hmem
    have h1 : (r : ℕ) + maxlag L - psiLag L (i + 1)
        = maxlag L - L.getD i 0 + (r : ℕ) := by
      show (r : ℕ) + maxlag L - L.getD i 0 = maxlag L - L.getD i 0 + (r : ℕ)
      omega
    rw [h1]
  · intro i hi r c
    rw [generate_Psi_getD cols L (by omega) r c]
    by_cases hc : (c : ℕ) = (r : ℕ) + maxlag L - psiLag L i
    · right; simp [hc]
    · left; simp [hc]
  · intro i hi r
    have ht : (r : ℕ) + maxlag L - psiLag L i < cols := by
      have hr : (r : ℕ) < cols - maxlag L := r.isLt
      omega
    have hset : (Finset.univ.filter fun c : Fin cols =>
        ((generate_Psi cols L).getD i 0) r c ≠ 0)
        = {⟨(r : ℕ) + maxlag L - psiLag L i, ht⟩} := by
      ext c
      rw [Finset.mem_filter, generate_Psi_getD cols L (by omega) r c]
      by_cases hc : (c : ℕ) = (r : ℕ) + maxlag L - psiLag L i <;>
        simp [hc, Fin.ext_iff]
    rw [hset, Finset.card_singleton]
  · unfold generate_Psi
    norm_num [List.range_succ]
    refine ⟨?_, ?_, ?_⟩ <;>
      · ext r c
        fin_cases r <;> fin_cases c <;>
          simp [psiLag, maxlag, Matrix.of_apply] <;> decide

/-- Witness for C4 at `cols = 5`, `L = [1, 3]`: the concrete-instance conjunct. -/
theorem generate_Psi_spec_witness :
    generate_Psi 5 [1, 3] =
      [!![0,0,0,1,0; 0,0,0,0,1], !![0,0,1,0,0; 0,0,0,1,0],
        !![1,0,0,0,0; 0,1,0,0,0]] :=
  (generate_Psi_spec 5 [1, 3] (by simp) (by decide)).2.2.2.2.2

/-- For a descending sequence, position `i` is among the first
`np.sum(s > tau)` indices exactly when `s i` itself exceeds `tau`. -/
theorem lt_countGT_iff {k : ℕ} {tau : ℝ} {s : Fin k → ℝ} (hs : Antitone s)
    (i : Fin k) : (i : ℕ) < countGT tau s ↔ tau < s i := by
  constructor
  · intro h
    by_contra hc
    push_neg at hc
    have hsub : (Finset.univ.filter fun j => tau < s j) ⊆ Finset.Iio i := by
      intro j hj
      rw [Finset.mem_filter] at hj
      rw [Finset.mem_Iio]
      by_contra hji
      push_neg at hji
      exact absurd (lt_of_lt_of_le hj.2 (hs hji)) (not_lt.mpr hc)
    have := Finset.card_le_card hsub
    rw [Fin.card_Iio] at this
    exact absurd (lt_of_lt_of_le h this) (lt_irrefl _)
  · intro h
    have hsub : Finset.Iic i ⊆ (Finset.univ.filter fun j => tau < s j) := by
      intro j hj
      rw [Finset.mem_Iic] at hj
      rw [Finset.mem_filter]
      exact ⟨Finset.mem_univ _, lt_of_lt_of_le h (hs hj)⟩
    have := Finset.card_le_card hsub
    rw [Fin.card_Iic] at this
    exact lt_of_lt_of_le (Nat.lt_succ_self _) this

/-- C2: for SVD factors with descending singular values and `tau > 0`, the
direct path of `svt_tnn` computes exactly the spec's reconstruction: top
`idx = #\x7bi | s i > tau\x7d` components kept, first `theta` unshrunk, the rest
shrunk by `tau`, everything at or below `tau` dropped. -/
theorem svt_tnn_direct_eq_spec {m n k : ℕ} (u : Matrix (Fin m) (Fin k) ℝ)
    (s : Fin k → ℝ) (v : Matrix (Fin k) (Fin n) ℝ) (tau : ℝ) (theta : ℕ)
    (htau : 0 < tau) (hs : Antitone s) :
    svt_tnn_direct u s v tau theta = svt_tnn_specRecon u s v tau theta := by
  ext a b
  unfold svt_tnn_direct svt_tnn_specRecon
  rw [Matrix.of_apply, Matrix.of_apply]
  refine Finset.sum_congr rfl fun i _ => ?_
  rw [if_congr (lt_countGT_iff hs i) rfl rfl]

/-- Witness for C2 at a concrete rank-one SVD (`u = v = [[1]]`, `s = [2]`,
`tau = 1`, `theta = 0`). -/
theorem svt_tnn_direct_eq_spec_witness :
    svt_tnn_direct !![(1 : ℝ)] ![2] !![(1 : ℝ)] 1 0
      = svt_tnn_specRecon !![(1 : ℝ)] ![2] !![(1 : ℝ)] 1 0 :=
  svt_tnn_direct_eq_spec _ _ _ _ _ (by norm_num)
    (fun i j _ => le_of_eq (by fin_cases i <;> fin_cases j <;> rfl))

/-- C3: in exact arithmetic, given an SVD `mat = u * diag s * v` with
orthonormal left singular vectors and descending nonnegative singular values,
(i) the Gram-matrix fast path (which decomposes `mat * matᵀ = u * diag (s²) * uᵀ`)
and (ii) the transposed recursive path (`svt_tnn(mat.T).T`, whose SVD factors
are `v.T, s, u.T`) both produce the output of the direct path: the dimension
branching changes no behavior. -/
theorem svt_tnn_branches_eq_direct {m n : ℕ} (u : Matrix (Fin m) (Fin m) ℝ)
    (s : Fin m → ℝ) (v : Matrix (Fin m) (Fin n) ℝ)
    (mat : Matrix (Fin m) (Fin n) ℝ) (tau : ℝ) (theta : ℕ)
    (htau : 0 < tau) (hs : Antitone s) (hsnn : ∀ i, 0 ≤ s i)
    (hsvd : mat = Matrix.of fun a b => ∑ i, s i * (u a i * v i b))
    (horth : ∀ i j, (∑ a, u a i * u a j) = if i = j then (1 : ℝ) else 0) :
    svt_tnn_gram u (fun i => s i ^ 2) mat tau theta
        = svt_tnn_direct u s v tau theta ∧
      Matrix.transpose (svt_tnn_direct (Matrix.transpose v) s (Matrix.transpose u) tau theta)
        = svt_tnn_direct u s v tau theta := by
  have key : ∀ (i : Fin m) (b : Fin n),
      (∑ c, u c i * mat c b) = s i * v i b := by
    intro i b
    rw [hsvd]
    calc ∑ c, u c i * (Matrix.of fun a b => ∑ j, s j * (u a j * v j b)) c b
        = ∑ c, ∑ j, (s j * v j b) * (u c i * u c j) := by
          refine Finset.sum_congr rfl fun c _ => ?_
          rw [Matrix.of_apply, Finset.mul_sum]
          exact Finset.sum_congr rfl fun j _ => by ring
      _ = ∑ j, ∑ c, (s j * v j b) * (u c i * u c j) := Finset.sum_comm
      _ = ∑ j, (s j * v j b) * (∑ c, u c i * u c j) := by
          refine Finset.sum_congr rfl fun j _ => (Finset.mul_sum _ _ _).symm
      _ = ∑ j, (s j * v j b) * (if i = j then 1 else 0) := by
          refine Finset.sum_congr rfl fun j _ => by rw [horth]
      _ = s i * v i b := by
          rw [Finset.sum_eq_single i]
          · rw [if_pos rfl, mul_one]
          · intro j _ hj
            rw [if_neg (Ne.symm hj), mul_zero]
          · intro h; exact absurd (Finset.mem_univ i) h
  constructor
  · ext a b
    unfold svt_tnn_gram svt_tnn_direct
    rw [Matrix.of_apply, Matrix.of_apply]
    have hsq : ∀ j, Real.sqrt (s j ^ 2) = s j := fun j => Real.sqrt_sq (hsnn j)
    simp only [hsq]
    refine Finset.sum_congr rfl fun i _ => ?_
    by_cases hidx : (i : ℕ) < countGT tau s
    · rw [if_pos hidx, if_pos hidx, key i b]
      have hsi : tau < s i := (lt_countGT_iff hs i).mp hidx
      have hne : s i ≠ 0 := ne_of_gt (lt_trans htau hsi)
      by_cases hth : (i : ℕ) < theta
      · rw [if_pos hth, if_pos hth]; ring
      · rw [if_neg hth, if_neg hth]
        field_simp
        ring
    · rw [if_neg hidx, if_neg hidx]
  · ext a b
    unfold svt_tnn_direct
    rw [Matrix.transpose_apply, Matrix.of_apply, Matrix.of_apply]
    refine Finset.sum_congr rfl fun i _ => ?_
    by_cases hidx : (i : ℕ) < countGT tau s
    · rw [if_pos hidx, if_pos hidx, Matrix.transpose_apply,
        Matrix.transpose_apply]
      ring
    · rw [if_neg hidx, if_neg hidx]

/-- Witness for C3 at the concrete SVD `mat = [[2]] = [[1]] * diag [2] * [[1]]`. -/
theorem svt_tnn_branches_eq_direct_witness :
    svt_tnn_gram !![(1 : ℝ)] (fun i => (![2] i) ^ 2) !![(2 : ℝ)] 1 0
        = svt_tnn_direct !![(1 : ℝ)] ![2] !![(1 : ℝ)] 1 0 ∧
      Matrix.transpose (svt_tnn_direct (Matrix.transpose !![(1 : ℝ)]) ![2]
          (Matrix.transpose !![(1 : ℝ)]) 1 0)
        = svt_tnn_direct !![(1 : ℝ)] ![2] !![(1 : ℝ)] 1 0 :=
  svt_tnn_branches_eq_direct !![(1 : ℝ)] ![2] !![(1 : ℝ)] !![(2 : ℝ)] 1 0
    (by norm_num)
    (fun i j _ => le_of_eq (by fin_cases i <;> fin_cases j <;> rfl))
    (by intro i; fin_cases i; norm_num)
    (by ext a b; fin_cases a <;> fin_cases b <;> simp)
    (by intro i j; fin_cases i <;> fin_cases j <;> simp)

theorem innerStep_Z_obs (P : Params nr nc)
    (B : Fin nr → Matrix (Fin (nc - maxlag P.L)) (Fin nc) ℝ)
    (st : InnerState nr nc) (p : Fin nr × Fin nc) (hp : p ∉ P.miss) :
    (innerStep P B st).Z p.1 p.2 = st.Z p.1 p.2 := by
  simp only [innerStep, Matrix.of_apply]
  rw [if_neg (by simpa using hp)]

theorem Zinit_obs (P : Params nr nc) (p : Fin nr × Fin nc) (hp : p ∉ P.miss) :
    Zinit P p.1 p.2 = P.S p.1 p.2 := by
  simp only [Zinit, Matrix.of_apply]
  rw [if_neg (by simpa using hp)]

theorem innerTrace_succ (P : Params nr nc) (n j : ℕ) :
    innerTrace P n (j + 1) =
      innerStep P (Bmat P (outerTrace P n).A) (innerTrace P n j) := by
  unfold innerTrace
  exact Function.iterate_succ_apply' _ _ _

theorem innerTrace_Z_obs (P : Params nr nc) (n j : ℕ) (p : Fin nr × Fin nc)
    (hp : p ∉ P.miss) :
    (innerTrace P n j).Z p.1 p.2 = (outerTrace P n).Z p.1 p.2 := by
  induction j with
  | zero => rfl
  | succ j ih => rw [innerTrace_succ, innerStep_Z_obs P _ _ p hp, ih]

theorem outerTrace_Z_obs (P : Params nr nc) (n : ℕ) (p : Fin nr × Fin nc)
    (hp : p ∉ P.miss) :
    (outerTrace P n).Z p.1 p.2 = P.S p.1 p.2 := by
  induction n with
  | zero => exact Zinit_obs P p hp
  | succ n ih =>
      have h : (outerTrace P (n + 1)).Z = (innerTrace P n P.K).Z := rfl
      rw [h, innerTrace_Z_obs P n P.K p hp, ih]

/-- C1: after any number of completed outer iterations and any number of
completed inner iterations within the next one, the working matrix `Z` agrees
with the observed matrix at every non-missing position, and one further inner
iteration leaves every non-missing entry of `Z` unchanged (the per-row solve
is committed only at missing positions). -/
theorem Z_observed_invariant (P : Params nr nc) (n j : ℕ)
    (p : Fin nr × Fin nc) (hp : p ∉ P.miss) :
    (innerTrace P n j).Z p.1 p.2 = P.S p.1 p.2 ∧
    (outerTrace P n).Z p.1 p.2 = P.S p.1 p.2 ∧
    (innerTrace P n (j + 1)).Z p.1 p.2 = (innerTrace P n j).Z p.1 p.2 := by
  refine ⟨?_, outerTrace_Z_obs P n p hp, ?_⟩
  · rw [innerTrace_Z_obs P n j p hp]; exact outerTrace_Z_obs P n p hp
  · rw [innerTrace_succ]; exact innerStep_Z_obs P _ _ p hp

/-- C10: at initialization, `Z` equals the observed matrix except that every
missing entry is filled with the mean of the NONZERO entries of the observed
matrix; an observed entry equal to zero is excluded from that mean even
though it is not missing, and for an all-zero observed matrix the selection
is empty (numpy's mean of an empty selection; in this exact-arithmetic
embedding the value degenerates to `0 / 0`). -/
theorem Zinit_fill (P : Params nr nc) (p : Fin nr × Fin nc) :
    (initState P).Z = Zinit P ∧
    (p ∈ P.miss → Zinit P p.1 p.2 = nonzeroMean P) ∧
    (p ∉ P.miss → Zinit P p.1 p.2 = P.S p.1 p.2) ∧
    (P.S p.1 p.2 = 0 →
      p ∉ Finset.univ.filter fun q : Fin nr × Fin nc => P.S q.1 q.2 ≠ 0) ∧
    (P.S = 0 →
      (Finset.univ.filter fun q : Fin nr × Fin nc => P.S q.1 q.2 ≠ 0) = ∅) ∧
    nonzeroMean P =
      (∑ q ∈ Finset.univ.filter (fun q : Fin nr × Fin nc => P.S q.1 q.2 ≠ 0),
        P.S q.1 q.2) /
      (Finset.univ.filter fun q : Fin nr × Fin nc => P.S q.1 q.2 ≠ 0).card := by
  refine ⟨rfl, ?_, ?_, ?_, ?_, rfl⟩
  · intro hp
    simp only [Zinit, Matrix.of_apply]
    rw [if_pos (by simpa using hp)]
  · exact Zinit_obs P p
  · intro h0
    simp [h0]
  · intro hS
    ext q
    simp [hS]

/-- C5: in every inner iteration, for each spatial row `m`, the imputer's
candidate update `mat[m, :]` solves
`(B_mᵀ B_m + (ρ/λ) I) z = (ρ/λ) (x_m + t_m/ρ)`, where
`B_m = Ψ_0 - Σ_i A[m, i] Ψ_i` is built from the current autoregressive
coefficients — provided the `spsolve` oracle really solves invertible linear
systems and the system matrix is invertible. -/
theorem inner_solve_solves_system (P : Params nr nc)
    (A : Matrix (Fin nr) (Fin P.L.length) ℝ) (rho : ℝ)
    (X Tm : Matrix (Fin nr) (Fin nc) ℝ) (m : Fin nr)
    (hsolve : ∀ (M : Matrix (Fin nc) (Fin nc) ℝ) (b : Fin nc → ℝ),
      IsUnit M.det → M.mulVec (P.solveO M b) = b)
    (hdet : IsUnit (Matrix.det ((Bmat P A m).transpose * Bmat P A m +
      (rho / P.lambda0) • (1 : Matrix (Fin nc) (Fin nc) ℝ)))) :
    ((Bmat P A m).transpose * Bmat P A m +
        (rho / P.lambda0) • (1 : Matrix (Fin nc) (Fin nc) ℝ)).mulVec
      (innerMat P (Bmat P A) rho X Tm m) =
      fun j => rho / P.lambda0 * (X m j + Tm m j / rho) := by
  unfold innerMat
  exact hsolve _ _ hdet

/-- Witness for C1 after one outer and one inner iteration, at the observed
position `(0, 0)`. -/
theorem Z_observed_invariant_witness :
    (innerTrace Pex 1 1).Z 0 0 = Pex.S 0 0 ∧
    (outerTrace Pex 1).Z 0 0 = Pex.S 0 0 ∧
    (innerTrace Pex 1 2).Z 0 0 = (innerTrace Pex 1 1).Z 0 0 :=
  Z_observed_invariant Pex 1 1 (0, 0) (by decide)

/-- Witness for C10: in `Pex` the entry `(0, 1)` is missing and gets the
nonzero mean; the entry `(0, 0)` is observed and is kept. -/
theorem Zinit_fill_witness :
    Zinit Pex 0 1 = nonzeroMean Pex ∧ Zinit Pex 0 0 = Pex.S 0 0 :=
  ⟨(Zinit_fill Pex (0, 1)).2.1 (by decide),
    (Zinit_fill Pex (0, 0)).2.2.1 (by decide)⟩

/-- Witness for C5 at `PexSolve` with `A = 0`, `rho = 1`, `X = T = 0`,
row `0`: the system matrix is the `1 × 1` identity. -/
theorem inner_solve_solves_system_witness :
    ((Bmat PexSolve 0 0).transpose * Bmat PexSolve 0 0 +
        ((1 : ℝ) / PexSolve.lambda0) • (1 : Matrix (Fin 1) (Fin 1) ℝ)).mulVec
      (innerMat PexSolve (Bmat PexSolve 0) 1 0 0 0) =
      fun j => (1 : ℝ) / PexSolve.lambda0 *
        ((0 : Matrix (Fin 1) (Fin 1) ℝ) 0 j +
          (0 : Matrix (Fin 1) (Fin 1) ℝ) 0 j / 1) := by
  have hB : (Bmat PexSolve 0 0).transpose * Bmat PexSolve 0 0 +
      ((1 : ℝ) / PexSolve.lambda0) • (1 : Matrix (Fin 1) (Fin 1) ℝ) = 1 := by
    ext i j
    rw [Matrix.add_apply, Matrix.mul_apply]
    have hempty : (Finset.univ : Finset (Fin (1 - maxlag PexSolve.L))) = ∅ := by
      rfl
    rw [hempty, Finset.sum_empty]
    fin_cases i <;> fin_cases j <;> simp [PexSolve]
  exact inner_solve_solves_system PexSolve 0 1 0 0 0
    (by
      intro M b h
      show M.mulVec (M⁻¹.mulVec b) = b
      rw [Matrix.mulVec_mulVec, Matrix.mul_nonsing_inv _ h, Matrix.one_mulVec])
    (by rw [hB, Matrix.det_one]; exact isUnit_one)

theorem outerTrace_succ_state (P : Params nr nc) (it : ℕ) :
    (outerStep P (outerTrace P it)).1 = outerTrace P (it + 1) := rfl

theorem loopGo_props (P : Params nr nc) :
    ∀ fuel : ℕ, 0 < fuel → ∀ it : ℕ, it + fuel = P.maxiter →
      (it < (loopGo P fuel it (outerTrace P it)).2.1 ∧
        (loopGo P fuel it (outerTrace P it)).2.1 ≤ P.maxiter) ∧
      ((loopGo P fuel it (outerTrace P it)).2.1 < P.maxiter →
        ((loopGo P fuel it (outerTrace P it)).2.2 < P.epsilon ∧
          (loopGo P fuel it (outerTrace P it)).2.2 ≠ 0)) ∧
      (((loopGo P fuel it (outerTrace P it)).2.2 < P.epsilon ∧
          (loopGo P fuel it (outerTrace P it)).2.2 ≠ 0) ∨
        (loopGo P fuel it (outerTrace P it)).2.1 = P.maxiter) ∧
      (loopGo P fuel it (outerTrace P it)).1 =
        outerTrace P (loopGo P fuel it (outerTrace P it)).2.1 ∧
      (loopGo P fuel it (outerTrace P it)).2.2 =
        tolAt P ((loopGo P fuel it (outerTrace P it)).2.1 - 1) ∧
      ∀ j, it ≤ j → j + 1 < (loopGo P fuel it (outerTrace P it)).2.1 →
        ¬(tolAt P j < P.epsilon ∧ tolAt P j ≠ 0) := by
  intro fuel
  induction fuel with
  | zero => intro h; exact absurd h (lt_irrefl 0)
  | succ f ih =>
      intro _ it hit
      simp only [loopGo]
      by_cases hcond : ((outerStep P (outerTrace P it)).2 < P.epsilon ∧
          (outerStep P (outerTrace P it)).2 ≠ 0) ∨ P.maxiter ≤ it + 1
      · rw [if_pos hcond]
        have htol : (outerStep P (outerTrace P it)).2 = tolAt P it := rfl
        dsimp only
        refine ⟨⟨Nat.lt_succ_self it, by omega⟩, ?_, ?_, ?_, ?_, ?_⟩
        · intro hlt
          rcases hcond with h | h
          · exact h
          · exact absurd hlt (by omega)
        · rcases hcond with h | h
          · exact Or.inl h
          · exact Or.inr (by omega)
        · exact outerTrace_succ_state P it
        · show (outerStep P (outerTrace P it)).2 = tolAt P (it + 1 - 1)
          rw [htol, Nat.add_sub_cancel]
        · intro j hj hj1
          exact absurd hj1 (by omega)
      · rw [if_neg hcond]
        push_neg at hcond
        have hit1 : it + 1 < P.maxiter := hcond.2
        have hf : 0 < f := by omega
        have hrec := ih hf (it + 1) (by omega)
        rw [outerTrace_succ_state P it]
        refine ⟨⟨lt_trans (Nat.lt_succ_self it) hrec.1.1, hrec.1.2⟩,
          hrec.2.1, hrec.2.2.1, hrec.2.2.2.1, hrec.2.2.2.2.1, ?_⟩
        intro j hj hj1
        rcases Nat.eq_or_lt_of_le hj with heq | hjgt
        · have htol : (outerStep P (outerTrace P it)).2 = tolAt P it := rfl
          rw [htol] at hcond
          rw [← heq]
          exact fun h => h.2 (hcond.1 h.1)
        · exact hrec.2.2.2.2.2 j (by omega) hj1

/-- C6 (amended): with `maxiter ≥ 1` the loop performs between `1` and
`maxiter` outer iterations; it stops before reaching `maxiter` ONLY when the
tolerance of its final iteration satisfies `tol < epsilon ∧ tol ≠ 0`, and it
stops at the first iteration whose tolerance passes that test if one occurs
before `maxiter`; reaching `maxiter` without the test ever passing is not an
error — the loop exits normally and the returned matrix is the `X` of the
last completed outer iteration.  (The claim's biconditional fails only when
the test first passes exactly at iteration `maxiter`; see the
counterexample.) -/
theorem imputer_termination (P : Params nr nc) (hm : 1 ≤ P.maxiter) :
    (1 ≤ (imputerRun P).2.1 ∧ (imputerRun P).2.1 ≤ P.maxiter) ∧
    ((imputerRun P).2.1 < P.maxiter →
      ((imputerRun P).2.2 < P.epsilon ∧ (imputerRun P).2.2 ≠ 0)) ∧
    (((imputerRun P).2.2 < P.epsilon ∧ (imputerRun P).2.2 ≠ 0) ∨
      (imputerRun P).2.1 = P.maxiter) ∧
    (imputerRun P).2.2 = tolAt P ((imputerRun P).2.1 - 1) ∧
    (∀ j, j + 1 < (imputerRun P).2.1 →
      ¬(tolAt P j < P.epsilon ∧ tolAt P j ≠ 0)) ∧
    imputer P = (outerTrace P (imputerRun P).2.1).X := by
  have hrun : imputerRun P = loopGo P P.maxiter 0 (outerTrace P 0) := by
    unfold imputerRun
    rw [max_eq_left hm]
    rfl
  have himp : imputer P = (imputerRun P).1.X := rfl
  rw [himp, hrun]
  have hprops := loopGo_props P P.maxiter (by omega) 0 (by omega)
  refine ⟨⟨hprops.1.1, hprops.1.2⟩, hprops.2.1, hprops.2.2.1,
    hprops.2.2.2.2.1, fun j hj => hprops.2.2.2.2.2 j (Nat.zero_le j) hj, ?_⟩
  rw [hprops.2.2.2.1]

/-- Witness for C6 at the concrete bundle `Pex` (`maxiter = 1`). -/
theorem imputer_termination_witness :
    (1 ≤ (imputerRun Pex).2.1 ∧ (imputerRun Pex).2.1 ≤ Pex.maxiter) ∧
    ((imputerRun Pex).2.1 < Pex.maxiter →
      ((imputerRun Pex).2.2 < Pex.epsilon ∧ (imputerRun Pex).2.2 ≠ 0)) ∧
    (((imputerRun Pex).2.2 < Pex.epsilon ∧ (imputerRun Pex).2.2 ≠ 0) ∨
      (imputerRun Pex).2.1 = Pex.maxiter) ∧
    (imputerRun Pex).2.2 = tolAt Pex ((imputerRun Pex).2.1 - 1) ∧
    (∀ j, j + 1 < (imputerRun Pex).2.1 →
      ¬(tolAt Pex j < Pex.epsilon ∧ tolAt Pex j ≠ 0)) ∧
    imputer Pex = (outerTrace Pex (imputerRun Pex).2.1).X :=
  imputer_termination Pex (by decide)

theorem tolAt_PexB_zero : tolAt PexB 0 = 1 := by
  have h : tolAt PexB 0
      = frobNorm (!![(1 : ℝ), 1] - !![(1 : ℝ), 0]) / frobNorm !![(1 : ℝ), 0] :=
    rfl
  rw [h]
  have h1 : !![(1 : ℝ), 1] - !![(1 : ℝ), 0] = !![0, 1] := by
    ext i j
    fin_cases i <;> fin_cases j <;> simp
  rw [h1]
  have h2 : frobNorm !![(0 : ℝ), 1] = 1 := by
    simp [frobNorm, Fin.sum_univ_two]
  have h3 : frobNorm !![(1 : ℝ), 0] = 1 := by
    simp [frobNorm, Fin.sum_univ_two]
  rw [h2, h3, div_one]

theorem imputerRun_PexB :
    imputerRun PexB = ((outerStep PexB (initState PexB)).1, 1,
      (outerStep PexB (initState PexB)).2) := by
  have h : imputerRun PexB =
      (if ((outerStep PexB (initState PexB)).2 < PexB.epsilon ∧
            (outerStep PexB (initState PexB)).2 ≠ 0) ∨ PexB.maxiter ≤ 0 + 1
        then ((outerStep PexB (initState PexB)).1, 0 + 1,
          (outerStep PexB (initState PexB)).2)
        else loopGo PexB 0 (0 + 1) (outerStep PexB (initState PexB)).1) := rfl
  rw [h, if_pos (Or.inr (by decide))]

/-- C6 counterexample: in the run `PexB` the final tolerance satisfies
`tol < epsilon ∧ tol ≠ 0`, yet the loop did NOT stop before reaching
`maxiter` — it stopped exactly at `maxiter = 1` — so the claimed equivalence
between stopping before `maxiter` and the final tolerance passing the
convergence test fails in the right-to-left direction. -/
theorem maxiter_boundary_counterexample :
    (imputerRun PexB).2.2 < PexB.epsilon ∧ (imputerRun PexB).2.2 ≠ 0 ∧
    (imputerRun PexB).2.1 = PexB.maxiter ∧
    ¬((imputerRun PexB).2.1 < PexB.maxiter) := by
  have htol : (imputerRun PexB).2.2 = 1 := by
    rw [imputerRun_PexB]
    exact tolAt_PexB_zero
  have hit : (imputerRun PexB).2.1 = 1 := by rw [imputerRun_PexB]
  refine ⟨?_, ?_, ?_, ?_⟩
  · rw [htol]; show (1 : ℝ) < 1000; norm_num
  · rw [htol]; norm_num
  · rw [hit]; exact rfl
  · rw [hit]; show ¬(1 < 1); omega

/-- C7 (amended): for every outer iteration after the first, the computed
`tol` is `‖X_n − X_(n-1)‖_F / ‖S‖_F`; for the FIRST outer iteration, the
reference matrix is the observed matrix itself (`last_mat` is initialized to
`sparse_mat`), so `tol_1 = ‖X_1 − S‖_F / ‖S‖_F`. -/
theorem tol_formula (P : Params nr nc) (n : ℕ) :
    tolAt P (n + 1) =
      frobNorm ((outerTrace P (n + 2)).X - (outerTrace P (n + 1)).X) /
        frobNorm P.S ∧
    tolAt P 0 = frobNorm ((outerTrace P 1).X - P.S) / frobNorm P.S :=
  ⟨rfl, rfl⟩

/-- C7 counterexample: in the run `PexB` the matrix `X` equals `[[1, 1]]` at
every outer iteration (the SVT oracle is constant), so the difference between
the first `X` and the `X` of any iteration is zero — yet the first computed
tolerance is `1 ≠ 0`: on the first iteration `tol` is NOT
`‖X − X_prev‖_F / ‖S‖_F` for any previously produced `X`; the code compares
against the observed matrix instead. -/
theorem tol_first_iteration_counterexample :
    (outerTrace PexB 1).X = !![(1 : ℝ), 1] ∧
    (outerTrace PexB 2).X = !![(1 : ℝ), 1] ∧
    tolAt PexB 0 = 1 ∧ (1 : ℝ) ≠ 0 :=
  ⟨rfl, rfl, tolAt_PexB_zero, by norm_num⟩

/-- C8 (amended): the pre-loop construction raises a shape error exactly when
some time lag is STRICTLY GREATER than the number of columns; a lag equal to
the number of columns passes every shape check and the loop starts
normally. -/
theorem generate_Psi_checked_error_iff (cols : ℕ) (L : List ℕ) (hne : L ≠ []) :
    (∃ e, generate_Psi_checked cols L = Except.error e) ↔ ∃ l ∈ L, cols < l := by
  unfold generate_Psi_checked
  by_cases h : (cols : ℤ) - (maxlag L : ℤ) < 0
  · rw [if_pos h]
    constructor
    · intro _
      exact ⟨maxlag L, maxlag_mem hne, by omega⟩
    · intro _
      exact ⟨_, rfl⟩
  · rw [if_neg h]
    constructor
    · rintro ⟨e, he⟩
      simp at he
    · rintro ⟨l, hl, hcl⟩
      have := le_maxlag hl
      omega

/-- Witness for the amended C8 at `cols = 2`, `L = [3]` (a lag strictly above
the column count does fail the pre-loop check). -/
theorem generate_Psi_checked_error_iff_witness :
    (∃ e, generate_Psi_checked 2 [3] = Except.error e) ↔ ∃ l ∈ [3], 2 < l :=
  generate_Psi_checked_error_iff 2 [3] (by simp)

/-- C8 counterexample: a time lag EQUAL to the number of columns (`lag = 2`,
`cols = 2`) — which the claim says must fail before any iteration starts —
passes the pre-loop shape checks: `generate_Psi` returns (empty) operators
and no error is raised. -/
theorem lag_eq_cols_no_error :
    generate_Psi_checked 2 [2] = Except.ok (generate_Psi 2 [2]) := rfl

end LAMC

